import Mathlib

/-!
Verification development for the catalyst repository.

Part 1 models `distributed_cmd_run` from `catalyst/utils/scripts.py` as a
pure function producing the trace of externally visible effects together
with a normal/exceptional outcome.  Part 2 (further below) models the
dictionary utilities from `catalyst/contrib/utils/dict.py`, both at the
level of values and over an explicit heap of dictionary objects, so that
statements about argument mutation can be expressed.
-/

set_option autoImplicit false

namespace Catalyst

/-- The distributed parameters resolved by `get_distributed_params()` at the
top of `distributed_cmd_run`.  The function itself lives outside the files
under study; the launcher only reads the three fields used here, so the
model takes the resolved record as an input. -/
structure DistributedParams where
  local_rank : Option Int
  world_size : Int
  start_rank : Int
deriving DecidableEq

/-- Modelled from the spec: `get_distributed_env(local_rank, rank, world_size)`
is not among the source files; per the spec it constructs "an environment
map encoding `{local_rank=i, rank=start_rank+i, world_size}`" for the
spawned worker. -/
structure Env where
  local_rank : Int
  rank : Int
  world_size : Int
deriving DecidableEq

/-- One externally visible effect of the launcher.  `α` is the (opaque) type
of the argument package `(*args, **kwargs)` handed to `worker_fn`. -/
inductive Event (α : Type) where
  /-- `worker_fn(*args, **kwargs)` invoked synchronously with arguments `a`. -/
  | workerCall (a : α)
  /-- `torch.cuda.set_device(d)`. -/
  | setDevice (d : Int)
  /-- `torch.distributed.init_process_group(backend=..., init_method=...)`. -/
  | initProcessGroup (backend : String) (initMethod : String)
  /-- `subprocess.Popen(cmd, env=env)` succeeded; the handle is tracked. -/
  | spawn (cmd : List String) (env : Env)
  /-- `worker.wait()` on the `idx`-th tracked worker returned exit status `code`. -/
  | wait (idx : Nat) (code : Int)
  /-- `worker.kill()` on the `idx`-th tracked worker. -/
  | kill (idx : Nat)
deriving DecidableEq

/-- Exceptions the spawn branch can propagate. -/
inductive Err where
  /-- `subprocess.Popen` raised while spawning the worker with this local rank. -/
  | spawnErr (i : Nat)
  /-- `worker.wait()` raised on the `idx`-th tracked worker. -/
  | waitErr (idx : Nat)
deriving DecidableEq

/-- The ambient process state read by the spawn branch:
`torch.cuda.device_count()`, `sys.executable`, `sys.argv`, and oracles
describing how each `Popen`/`wait` call behaves (success, raised exception,
observed exit status). -/
structure World where
  deviceCount : Nat
  executable : String
  argv : List String
  spawnOk : Nat → Bool
  waitRaises : Nat → Bool
  exitCode : Nat → Int

/-- `cmd = [sys.executable] + sys.argv.copy()`. -/
def spawnCmd (w : World) : List String :=
  w.executable :: w.argv

/-- The environment handed to the worker with local rank `i`
(see `Env` for the spec-modelled `get_distributed_env`). -/
def mkEnv (p : DistributedParams) (i : Nat) : Env :=
  { local_rank := (i : Int), rank := p.start_rank + (i : Int),
    world_size := p.world_size }

/-- The spawn loop `for local_rank in range(device_count): ...` starting at
local rank `i` with `n` iterations remaining.  Returns the emitted events,
the list of tracked worker indices (in spawn order), and the exception, if
any, raised by a `Popen` call; on such an exception the workers tracked so
far are retained for cleanup. -/
def spawnLoop {α : Type} (w : World) (p : DistributedParams) :
    Nat → Nat → List (Event α) × List Nat × Option Err
  | _, 0 => ([], [], none)
  | i, n + 1 =>
    if w.spawnOk i then
      let rest := spawnLoop w p (i + 1) n
      (Event.spawn (spawnCmd w) (mkEnv p i) :: rest.1, i :: rest.2.1, rest.2.2)
    else
      ([], [], some (Err.spawnErr i))

/-- The wait loop `for worker in workers: worker.wait()`.  A raising `wait`
stops the loop and carries the exception; otherwise the returned exit
status is recorded (and, as in the source, otherwise ignored). -/
def waitLoop {α : Type} (w : World) :
    List Nat → List (Event α) × Option Err
  | [] => ([], none)
  | x :: xs =>
    if w.waitRaises x then
      ([], some (Err.waitErr x))
    else
      let rest := waitLoop w xs
      (Event.wait x (w.exitCode x) :: rest.1, rest.2)

/-- The `else` branch of `distributed_cmd_run`: spawn one worker per device
inside `try:`, wait on each, and in `finally:` kill every tracked worker;
the `finally` block re-raises any pending exception after the kills. -/
def spawnBranch {α : Type} (w : World) (p : DistributedParams) :
    List (Event α) × Except Err Unit :=
  let s := spawnLoop w p 0 w.deviceCount
  match s.2.2 with
  | some e => (s.1 ++ s.2.1.map Event.kill, Except.error e)
  | none =>
    let wt := waitLoop (α := α) w s.2.1
    match wt.2 with
    | some e => (s.1 ++ wt.1 ++ s.2.1.map Event.kill, Except.error e)
    | none => (s.1 ++ wt.1 ++ s.2.1.map Event.kill, Except.ok ())

/-- `distributed_cmd_run(distributed, worker_fn, *args, **kwargs)` from
`catalyst/utils/scripts.py`, with the resolved distributed parameters `p`
and the ambient state `w` as explicit inputs and `a : α` standing for the
argument package of `worker_fn`.  Returns the trace of effects and the
outcome (normal return or propagated exception). -/
def distributed_cmd_run {α : Type} (distributed : Bool) (a : α)
    (p : DistributedParams) (w : World) :
    List (Event α) × Except Err Unit :=
  if ¬distributed ∨ p.world_size ≤ 1 then
    ([Event.workerCall a], Except.ok ())
  else
    match p.local_rank with
    | some lr =>
      ([Event.setDevice lr, Event.initProcessGroup "nccl" "env://",
        Event.workerCall a], Except.ok ())
    | none => spawnBranch w p

/-- The workers tracked by the spawn branch (spawn order). -/
def trackedWorkers (w : World) (p : DistributedParams) : List Nat :=
  (spawnLoop (α := Unit) w p 0 w.deviceCount).2.1

/-!
Part 2: the dictionary utilities of `catalyst/contrib/utils/dict.py`.

Python dictionaries are mutable heap objects.  To state mutation claims we
use an explicit heap: an address-indexed store of dictionary objects, each
an insertion-ordered association list.  A value is an (immutable) integer,
an array (numpy arrays are only ever rebuilt, never mutated, by the
functions studied, so they are modelled by value), or a reference to a
dictionary object.  Recursive functions take a fuel parameter and return
`none` when it runs out; every theorem quantifies over the fuel.
-/

/-- Heap address of a dictionary object. -/
abbrev Addr := Nat

/-- A Python value stored in a dictionary. -/
inductive HVal where
  | int (n : Int)
  | arr (xs : List Int)
  | ref (a : Addr)
deriving DecidableEq

/-- A dictionary object: entries in insertion order, keys distinct. -/
abbrev Obj := List (String × HVal)

/-- The heap: object at address `a` is `objs[a]`; allocation appends. -/
structure Heap where
  objs : List Obj
deriving DecidableEq

def Heap.size (h : Heap) : Nat := h.objs.length

def Heap.get (h : Heap) (a : Addr) : Obj := h.objs.getD a []

def Heap.set (h : Heap) (a : Addr) (o : Obj) : Heap := ⟨h.objs.set a o⟩

def Heap.alloc (h : Heap) (o : Obj) : Heap × Addr :=
  (⟨h.objs ++ [o]⟩, h.objs.length)

/-- `d[k]` lookup on an association list (keys are distinct, so first match). -/
def lookupKey {β : Type} : List (String × β) → String → Option β
  | [], _ => none
  | (k, v) :: es, k0 => if k = k0 then some v else lookupKey es k0

/-- Python dict assignment `d[k] = v`: update in place if the key exists
(keeping its position), otherwise append. -/
def setKey {β : Type} : List (String × β) → String → β → List (String × β)
  | [], k0, v0 => [(k0, v0)]
  | (k, v) :: es, k0, v0 =>
    if k = k0 then (k, v0) :: es else (k, v) :: setKey es k0 v0

mutual

/-- `copy.deepcopy` on a value: integers and arrays are copied by value, a
referenced dictionary is copied entry by entry into a freshly allocated
object. -/
def deepcopyVal : Nat → Heap → HVal → Option (Heap × HVal)
  | 0, _, _ => none
  | f + 1, h, HVal.ref a =>
    match deepcopyEntries f h (h.get a) with
    | none => none
    | some (h1, es) => some ((h1.alloc es).1, HVal.ref (h1.alloc es).2)
  | _ + 1, h, v => some (h, v)

/-- `copy.deepcopy` of the entry list of a dictionary, threading the heap. -/
def deepcopyEntries : Nat → Heap → Obj → Option (Heap × Obj)
  | 0, _, _ => none
  | _ + 1, h, [] => some (h, [])
  | f + 1, h, (k, v) :: es =>
    match deepcopyVal f h v with
    | none => none
    | some (h1, v1) =>
      match deepcopyEntries f h1 es with
      | none => none
      | some (h2, es2) => some (h2, (k, v1) :: es2)

end

mutual

/-- `merge_dicts` over the heap, binary instance
`merge_dicts(dicts[0], dicts[1])`, with `a2 = none` standing for a `None`
second argument (`merge_dict or \x7b\x7d` turns it into an empty
iteration): deep-copy the first argument, then run the update loop on the
fresh copy. -/
def merge_dictsH : Nat → Heap → Addr → Option Addr → Option (Heap × Addr)
  | 0, _, _, _ => none
  | f + 1, h, a1, a2 =>
    match deepcopyVal (f + 1) h (HVal.ref a1) with
    | some (h1, HVal.ref c) =>
      let keys := match a2 with
        | none => []
        | some b => (h1.get b).map Prod.fst
      match mergeLoopH f h1 c a2 keys with
      | none => none
      | some h2 => some (h2, c)
    | _ => none

/-- The remaining iterations `ks` of `for k in merge_dict`, writing into
the result object at `c`; `merge_dict` is the object at `a2`, looked up
live. -/
def mergeLoopH : Nat → Heap → Addr → Option Addr → List String → Option Heap
  | 0, _, _, _, _ => none
  | _ + 1, h, _, _, [] => some h
  | f + 1, h, c, a2, k :: ks =>
    match a2 with
    | none => none
    | some b =>
      match lookupKey (h.get b) k with
      | none => none
      | some mv =>
        match lookupKey (h.get c) k, mv with
        | some (HVal.ref s1), HVal.ref s2 =>
          match merge_dictsH f h s1 (some s2) with
          | none => none
          | some (h1, r) =>
            mergeLoopH f (h1.set c (setKey (h1.get c) k (HVal.ref r))) c a2 ks
        | _, _ =>
          mergeLoopH f (h.set c (setKey (h.get c) k mv)) c a2 ks

end

/-- `append_dict`'s loop `for key in dict1.keys(): dict1[key] =
np.concatenate((dict1[key], dict2[key]))`, writing back into the object at
`a1`.  The model is defined when both values are arrays and `dict2` has the
key (otherwise Python raises, modelled as `none`). -/
def appendLoop (a1 a2 : Addr) : Heap → List String → Option Heap
  | h, [] => some h
  | h, k :: ks =>
    match lookupKey (h.get a1) k, lookupKey (h.get a2) k with
    | some (HVal.arr xs), some (HVal.arr ys) =>
      appendLoop a1 a2 (h.set a1 (setKey (h.get a1) k (HVal.arr (xs ++ ys)))) ks
    | _, _ => none

/-- `append_dict(dict1, dict2)` over the heap: iterate over `dict1`'s keys,
overwrite each value in `dict1` with the concatenation, and return `dict1`
itself (the same object, address `a1`). -/
def append_dict (h : Heap) (a1 a2 : Addr) : Option (Heap × Addr) :=
  match appendLoop a1 a2 h ((h.get a1).map Prod.fst) with
  | none => none
  | some h1 => some (h1, a1)

/-- `collections.OrderedDict(items)`: first occurrence of a key fixes its
position, the last value for it wins. -/
def ordDict (items : List (String × HVal)) : Obj :=
  items.foldl (fun acc kv => setKey acc kv.1 kv.2) []

mutual

/-- `flatten_dict(dictionary, parent_key, separator)` over the heap:
collect the flattened items of the object at `a` into an ordered dict. -/
def flatten_dictH : Nat → Heap → Addr → String → String → Option Obj
  | 0, _, _, _, _ => none
  | f + 1, h, a, parentKey, sep =>
    match flattenLoop f h (h.get a) parentKey sep with
    | none => none
    | some items => some (ordDict items)

/-- The item loop of `flatten_dict`: a nested dictionary (a `ref`) is
flattened recursively and its items extended onto the list; any other
value is appended under the prefixed key. -/
def flattenLoop : Nat → Heap → Obj → String → String → Option (List (String × HVal))
  | 0, _, _, _, _ => none
  | _ + 1, _, [], _, _ => some []
  | f + 1, h, (k, v) :: es, parentKey, sep =>
    let newKey := if parentKey = "" then k else parentKey ++ sep ++ k
    match v with
    | HVal.ref b =>
      match flatten_dictH f h b newKey sep with
      | none => none
      | some sub =>
        match flattenLoop f h es parentKey sep with
        | none => none
        | some rest => some (sub ++ rest)
    | _ =>
      match flattenLoop f h es parentKey sep with
      | none => none
      | some rest => some ((newKey, v) :: rest)

end

/-!
Value-level model of `merge_dicts`.  `copy.deepcopy` is value-preserving,
so at the level of values (ignoring object identity, which the heap model
above covers) it is the identity, and the merge is a pure recursive
function on trees.
-/

/-- A Python value as a pure tree (object identity forgotten). -/
inductive PyTree where
  | int (n : Int)
  | arr (xs : List Int)
  | dict (es : List (String × PyTree))

/-- The binary instance of `merge_dicts` at value level: `d1` is the deep
copy being updated, and the second argument is the entry list of
`merge_dict`, processed key by key in order (with a fuel parameter for the
recursion into nested dictionaries). -/
def merge_dicts : Nat → List (String × PyTree) → List (String × PyTree) →
    Option (List (String × PyTree))
  | _, d1, [] => some d1
  | 0, _, _ :: _ => none
  | f + 1, d1, (k, v) :: rest =>
    match lookupKey d1 k, v with
    | some (PyTree.dict sub1), PyTree.dict sub2 =>
      match merge_dicts f sub1 sub2 with
      | none => none
      | some sub => merge_dicts f (setKey d1 k (PyTree.dict sub)) rest
    | _, _ => merge_dicts f (setKey d1 k v) rest

/-- `merge_dicts(d1, d2)` at value level with a possibly-`None` second
argument: `merge_dict = merge_dict or {}`. -/
def merge_dictsV (f : Nat) (d1 : List (String × PyTree))
    (d2 : Option (List (String × PyTree))) :
    Option (List (String × PyTree)) :=
  merge_dicts f d1 (d2.getD [])

/-- Between a heap `h` and a later heap `h2`, every object in the fresh
region (addresses at or above `h.size`) references only the fresh region:
nothing allocated after `h` points back into a dictionary object of `h`,
so the new objects share no mutable structure with the pre-existing
ones. -/
def freshClosed (h h2 : Heap) : Prop :=
  ∀ j, h.size ≤ j → ∀ kv ∈ h2.get j, ∀ b, kv.2 = HVal.ref b → h.size ≤ b

/-!
Concrete sample inputs, used to instantiate the theorems below.
-/

/-- A heap with a nested dictionary: object 0 is `{"a": 1, "b": <obj 1>}`,
object 1 is `{"c": 2}`. -/
def hNested : Heap :=
  ⟨[[("a", HVal.int 1), ("b", HVal.ref 1)], [("c", HVal.int 2)]]⟩

/-- The heap after `merge_dicts(<obj 0 of hNested>, None)`: the original
objects unchanged, a copy of object 1 at address 2 and a copy of object 0
at address 3 referencing it. -/
def hNestedM : Heap :=
  ⟨[[("a", HVal.int 1), ("b", HVal.ref 1)], [("c", HVal.int 2)],
    [("c", HVal.int 2)], [("a", HVal.int 1), ("b", HVal.ref 2)]]⟩

/-- A heap for `append_dict`: object 0 is `{"x": array([1])}`, object 1 is
`{"x": array([2])}`. -/
def hApp : Heap :=
  ⟨[[("x", HVal.arr [1])], [("x", HVal.arr [2])]]⟩

/-- The heap after `append_dict(<obj 0>, <obj 1>)` on `hApp`: object 0 has
been overwritten in place with the concatenation. -/
def hAppM : Heap :=
  ⟨[[("x", HVal.arr [1, 2])], [("x", HVal.arr [2])]]⟩

/-- Resolved distributed parameters of a top-level launch: no local rank,
world size 2, start rank 0. -/
def sampleP : DistributedParams := ⟨none, 2, 0⟩

/-- Resolved distributed parameters of a spawned worker: local rank 1. -/
def sampleWorkerP : DistributedParams := ⟨some 1, 2, 0⟩

/-- Ambient state with two devices where every spawn and wait succeeds and
every worker exits with status 0. -/
def sampleWorld : World :=
  ⟨2, "/usr/bin/python3", ["train.py", "--config", "cfg.yml"],
   fun _ => true, fun _ => false, fun _ => 0⟩

/-- Ambient state with one device whose worker exits with status 1 (the
`wait` call returns normally, as `Popen.wait` does for any exit status). -/
def failWorld : World :=
  ⟨1, "/usr/bin/python3", ["train.py"],
   fun _ => true, fun _ => false, fun _ => 1⟩

/-- Ambient state with two devices where waiting on the first tracked
worker raises. -/
def raiseWorld : World :=
  ⟨2, "/usr/bin/python3", ["train.py"],
   fun _ => true, fun i => i = 0, fun _ => 0⟩

/-- `sampleWorld` with no devices visible. -/
def zeroDevWorld : World :=
  ⟨0, "/usr/bin/python3", ["train.py"],
   fun _ => true, fun _ => false, fun _ => 0⟩

/-!
Helper lemmas about the launcher model.
-/

/-- The bookkeeping components of the spawn loop (tracked workers, pending
exception) do not depend on the type of the worker arguments. -/
lemma spawnLoop_snd_eq {α : Type} (w : World) (p : DistributedParams) :
    ∀ (n i : Nat),
      (spawnLoop (α := α) w p i n).2 = (spawnLoop (α := Unit) w p i n).2 := by
  intro n
  induction n with
  | zero => intro i; rfl
  | succ n ih =>
    intro i
    simp only [spawnLoop]
    by_cases hok : w.spawnOk i
    · simp only [hok, if_true]
      have := ih (i + 1)
      simp only [Prod.ext_iff] at this ⊢
      exact ⟨by simp [this.1], by simp [this.2]⟩
    · simp [hok]

/-- The pending exception of the wait loop does not depend on the type of
the worker arguments. -/
lemma waitLoop_snd_eq {α : Type} (w : World) :
    ∀ xs : List Nat,
      (waitLoop (α := α) w xs).2 = (waitLoop (α := Unit) w xs).2 := by
  intro xs
  induction xs with
  | nil => rfl
  | cons x xs ih =>
    simp only [waitLoop]
    by_cases hx : w.waitRaises x <;> simp [hx, ih]

/-- When every `Popen` call in range succeeds, the spawn loop emits exactly
one spawn event per local rank, tracks exactly those workers in order, and
raises nothing. -/
lemma spawnLoop_ok {α : Type} (w : World) (p : DistributedParams) :
    ∀ (n i : Nat), (∀ j, i ≤ j → j < i + n → w.spawnOk j = true) →
      spawnLoop (α := α) w p i n =
        ((List.range' i n).map (fun j => Event.spawn (spawnCmd w) (mkEnv p j)),
         List.range' i n, none) := by
  intro n
  induction n with
  | zero => intro i _; rfl
  | succ n ih =>
    intro i hok
    have h0 : w.spawnOk i = true := hok i (Nat.le_refl i) (by omega)
    simp only [spawnLoop, h0, if_true]
    rw [ih (i + 1) (fun j h1 h2 => hok j (by omega) (by omega))]
    simp [List.range']

/-- When no `wait` call raises, the wait loop emits one wait event per
tracked worker, recording the observed exit status, and raises nothing. -/
lemma waitLoop_ok {α : Type} (w : World) :
    ∀ xs : List Nat, (∀ x ∈ xs, w.waitRaises x = false) →
      waitLoop (α := α) w xs =
        (xs.map (fun x => Event.wait x (w.exitCode x)), none) := by
  intro xs
  induction xs with
  | nil => intro _; rfl
  | cons x xs ih =>
    intro hx
    have h0 : w.waitRaises x = false := hx x (by simp)
    simp only [waitLoop, h0]
    rw [ih (fun y hy => hx y (by simp [hy]))]
    simp

/-- In the top-level launch case (`distributed`, `world_size > 1`, no local
rank) the launcher runs the spawn branch. -/
lemma distributed_cmd_run_spawn {α : Type} (a : α) (p : DistributedParams)
    (w : World) (hw : 1 < p.world_size) (hlr : p.local_rank = none) :
    distributed_cmd_run true a p w = spawnBranch w p := by
  simp only [distributed_cmd_run, hlr]
  rw [if_neg (by simp; omega)]

/-- On the normal path (every spawn succeeds, no wait raises) the spawn
branch emits one spawn per device, one wait per worker, then one kill per
worker, and returns normally. -/
lemma spawnBranch_normal {α : Type} (w : World) (p : DistributedParams)
    (hspawn : ∀ i, i < w.deviceCount → w.spawnOk i = true)
    (hwait : ∀ i, i < w.deviceCount → w.waitRaises i = false) :
    spawnBranch (α := α) w p =
      ((List.range w.deviceCount).map
          (fun i => Event.spawn (spawnCmd w) (mkEnv p i)) ++
        ((List.range w.deviceCount).map (fun i => Event.wait i (w.exitCode i)) ++
          (List.range w.deviceCount).map Event.kill),
       Except.ok ()) := by
  have hs := spawnLoop_ok (α := α) w p w.deviceCount 0
    (fun j _ hj => hspawn j (by omega))
  have hwt := waitLoop_ok (α := α) w (List.range' 0 w.deviceCount)
    (fun x hx => hwait x (by
      have := List.mem_range'_1.mp hx
      omega))
  simp only [spawnBranch, hs, hwt, List.range_eq_range']
  simp [List.append_assoc]

/-- Every event emitted by the spawn loop is a spawn of the re-executed
command with the environment of some local rank in range. -/
lemma spawnLoop_mem_events {α : Type} (w : World) (p : DistributedParams) :
    ∀ (n i : Nat) (e : Event α), e ∈ (spawnLoop (α := α) w p i n).1 →
      ∃ j, i ≤ j ∧ j < i + n ∧
        e = Event.spawn (spawnCmd w) (mkEnv p j) := by
  intro n
  induction n with
  | zero => intro i e he; simp [spawnLoop] at he
  | succ n ih =>
    intro i e he
    simp only [spawnLoop] at he
    by_cases hok : w.spawnOk i
    · rw [if_pos hok] at he
      rcases List.mem_cons.mp he with rfl | he
      · exact ⟨i, Nat.le_refl i, by omega, rfl⟩
      · obtain ⟨j, h1, h2, h3⟩ := ih (i + 1) e he
        exact ⟨j, by omega, by omega, h3⟩
    · rw [if_neg hok] at he
      simp at he

/-- Every event emitted by the wait loop is a wait on one of the workers
handed to it. -/
lemma waitLoop_mem_events {α : Type} (w : World) :
    ∀ (xs : List Nat) (e : Event α), e ∈ (waitLoop (α := α) w xs).1 →
      ∃ x ∈ xs, e = Event.wait x (w.exitCode x) := by
  intro xs
  induction xs with
  | nil => intro e he; simp [waitLoop] at he
  | cons x xs ih =>
    intro e he
    simp only [waitLoop] at he
    by_cases hx : w.waitRaises x
    · rw [if_pos hx] at he
      simp at he
    · rw [if_neg hx] at he
      rcases List.mem_cons.mp he with rfl | he
      · exact ⟨x, by simp, rfl⟩
      · obtain ⟨y, h1, h2⟩ := ih e he
        exact ⟨y, by simp [h1], h2⟩

/-- Every event in the spawn-branch trace comes from the spawn loop, the
wait loop on the tracked workers, or the final kill loop. -/
lemma spawnBranch_mem {α : Type} (w : World) (p : DistributedParams)
    (e : Event α) (he : e ∈ (spawnBranch (α := α) w p).1) :
    e ∈ (spawnLoop (α := α) w p 0 w.deviceCount).1 ∨
    e ∈ (waitLoop (α := α) w
          (spawnLoop (α := α) w p 0 w.deviceCount).2.1).1 ∨
    e ∈ (spawnLoop (α := α) w p 0 w.deviceCount).2.1.map Event.kill := by
  rcases hs : spawnLoop (α := α) w p 0 w.deviceCount with ⟨evs, ws, err⟩
  simp only [spawnBranch, hs] at he ⊢
  rcases err with _ | err
  · rcases hwt : waitLoop (α := α) w ws with ⟨wevs, werr⟩
    simp only [hwt] at he ⊢
    rcases werr with _ | e0 <;>
      · simp only [List.append_assoc, List.mem_append] at he
        tauto
  · simp only [List.mem_append] at he
    tauto

/-- C1: in the spawn branch, on every exit path — normal return, an
exception while spawning, or an exception while waiting — the trace ends
with a kill of every tracked worker; and an exception raised by a `wait`
call is propagated, never swallowed. -/
theorem claim_C1 {α : Type} (a : α) (p : DistributedParams) (w : World)
    (hw : 1 < p.world_size) (hlr : p.local_rank = none) :
    (∃ pre, (distributed_cmd_run true a p w).1 =
        pre ++ (trackedWorkers w p).map Event.kill) ∧
    ((spawnLoop (α := Unit) w p 0 w.deviceCount).2.2 = none →
      ∀ e, (waitLoop (α := Unit) w (trackedWorkers w p)).2 = some e →
        (distributed_cmd_run true a p w).2 = Except.error e) := by
  rw [distributed_cmd_run_spawn a p w hw hlr]
  rcases hs : spawnLoop (α := α) w p 0 w.deviceCount with ⟨evs, ws, err⟩
  have hsnd := spawnLoop_snd_eq (α := α) w p w.deviceCount 0
  rw [hs] at hsnd
  have hT : trackedWorkers w p = ws := by
    unfold trackedWorkers
    rw [← hsnd]
  have hE : (spawnLoop (α := Unit) w p 0 w.deviceCount).2.2 = err := by
    rw [← hsnd]
  simp only [spawnBranch, hs]
  rcases err with _ | err
  · rcases hwt : waitLoop (α := α) w ws with ⟨wevs, werr⟩
    have hwsnd := waitLoop_snd_eq (α := α) w ws
    rw [hwt] at hwsnd
    simp only [hwt]
    rcases werr with _ | e0
    · refine ⟨⟨evs ++ wevs, by rw [hT, List.append_assoc]⟩, ?_⟩
      intro _ e he
      rw [hT, ← hwsnd] at he
      simp at he
    · refine ⟨⟨evs ++ wevs, by rw [hT, List.append_assoc]⟩, ?_⟩
      intro _ e he
      rw [hT, ← hwsnd] at he
      have he' : e0 = e := by simpa using he
      subst he'
      rfl
  · refine ⟨⟨evs, by rw [hT]⟩, ?_⟩
    intro h0
    rw [hE] at h0
    simp at h0

/-- Witness for C1: a world where waiting on worker 0 raises; the launcher
propagates the exception and its trace still ends with a kill of each of
the two tracked workers. -/
theorem claim_C1_witness :
    (∃ pre, (distributed_cmd_run true (0 : Nat) sampleP raiseWorld).1 =
        pre ++ (trackedWorkers raiseWorld sampleP).map Event.kill) ∧
    ((spawnLoop (α := Unit) raiseWorld sampleP 0
        raiseWorld.deviceCount).2.2 = none →
      ∀ e, (waitLoop (α := Unit) raiseWorld
          (trackedWorkers raiseWorld sampleP)).2 = some e →
        (distributed_cmd_run true (0 : Nat) sampleP raiseWorld).2 =
          Except.error e) :=
  claim_C1 0 sampleP raiseWorld (by decide) rfl

/-- C9: in the spawn branch the worker arguments are never used — the
launcher's behaviour is identical for any two argument packages, no
`worker_fn` call occurs in the launching process, and every spawned worker
receives only the re-executed command line and a constructed environment. -/
theorem claim_C9 {α : Type} (a a' : α) (p : DistributedParams) (w : World)
    (hw : 1 < p.world_size) (hlr : p.local_rank = none) :
    distributed_cmd_run true a p w = distributed_cmd_run true a' p w ∧
    (∀ x : α, Event.workerCall x ∉ (distributed_cmd_run true a p w).1) ∧
    (∀ cmd env, Event.spawn cmd env ∈ (distributed_cmd_run true a p w).1 →
      cmd = spawnCmd w ∧ ∃ i, i < w.deviceCount ∧ env = mkEnv p i) := by
  rw [distributed_cmd_run_spawn a p w hw hlr,
    distributed_cmd_run_spawn a' p w hw hlr]
  refine ⟨rfl, ?_, ?_⟩
  · intro x hx
    rcases spawnBranch_mem w p _ hx with h | h | h
    · obtain ⟨j, _, _, hj⟩ := spawnLoop_mem_events w p _ _ _ h
      simp at hj
    · obtain ⟨y, _, hy⟩ := waitLoop_mem_events w _ _ h
      simp at hy
    · obtain ⟨y, _, hy⟩ := List.mem_map.mp h
      simp at hy
  · intro cmd env hx
    rcases spawnBranch_mem w p _ hx with h | h | h
    · obtain ⟨j, _, hj2, hj⟩ := spawnLoop_mem_events w p _ _ _ h
      rcases hj with ⟨rfl, rfl⟩
      exact ⟨rfl, j, by omega, rfl⟩
    · obtain ⟨y, _, hy⟩ := waitLoop_mem_events w _ _ h
      simp at hy
    · obtain ⟨y, _, hy⟩ := List.mem_map.mp h
      simp at hy

/-- Witness for C9: the whole launcher run is unchanged when the worker
arguments change from 0 to 1, and no worker call appears in its trace. -/
theorem claim_C9_witness :
    distributed_cmd_run true (0 : Nat) sampleP sampleWorld =
      distributed_cmd_run true (1 : Nat) sampleP sampleWorld ∧
    Event.workerCall (5 : Nat) ∉
      (distributed_cmd_run true (0 : Nat) sampleP sampleWorld).1 :=
  ⟨(claim_C9 0 1 sampleP sampleWorld (by decide) rfl).1,
   (claim_C9 0 1 sampleP sampleWorld (by decide) rfl).2.1 5⟩

/-!
Heap lemmas.
-/

lemma Heap.size_set (h : Heap) (a : Addr) (o : Obj) :
    (h.set a o).size = h.size :=
  List.length_set h.objs a o

lemma Heap.get_set_ne (h : Heap) (a b : Addr) (o : Obj) (hab : a ≠ b) :
    (h.set a o).get b = h.get b := by
  simp [Heap.get, Heap.set, List.getD_eq_getElem?_getD, List.getElem?_set_ne hab]

/-- A heap extension leaves all pre-existing objects in place. -/
lemma Heap.get_ext {h h2 : Heap} (t : List Obj) (he : h2.objs = h.objs ++ t)
    (j : Addr) (hj : j < h.size) : h2.get j = h.get j := by
  simp only [Heap.get, he]
  exact List.getD_append h.objs t [] j hj

lemma Heap.size_ext {h h2 : Heap} (t : List Obj)
    (he : h2.objs = h.objs ++ t) : h.size ≤ h2.size := by
  simp [Heap.size, he]

/-- Reading past the end of the heap yields the empty object. -/
lemma Heap.get_past (h : Heap) (j : Addr) (hj : h.size ≤ j) :
    h.get j = [] :=
  List.getD_eq_default h.objs [] hj

lemma freshClosed_self (h : Heap) : freshClosed h h := by
  intro j hj kv hkv b _
  rw [Heap.get_past h j hj] at hkv
  simp at hkv

/-- `freshClosed` composes along heap extensions. -/
lemma freshClosed_trans {h h1 h2 : Heap} (t : List Obj)
    (he : h1.objs = h.objs ++ t) (f1 : freshClosed h h1)
    (f2 : freshClosed h1 h2) (t2 : List Obj)
    (he2 : h2.objs = h1.objs ++ t2) : freshClosed h h2 := by
  intro j hj kv hkv b hb
  have hsz := Heap.size_ext t he
  by_cases hlt : j < h1.size
  · rw [Heap.get_ext t2 he2 j hlt] at hkv
    exact f1 j hj kv hkv b hb
  · have := f2 j (by omega) kv hkv b hb
    omega

/-- `copy.deepcopy` extends the heap without touching pre-existing
objects, any reference it returns is to a freshly allocated object, and
the freshly allocated objects reference only the fresh region. -/
lemma deepcopy_spec : ∀ f : Nat,
    (∀ h v h1 v1, deepcopyVal f h v = some (h1, v1) →
      (∃ t, h1.objs = h.objs ++ t) ∧
      (∀ b, v1 = HVal.ref b → h.size ≤ b ∧ b < h1.size) ∧
      freshClosed h h1) ∧
    (∀ h es h1 es1, deepcopyEntries f h es = some (h1, es1) →
      (∃ t, h1.objs = h.objs ++ t) ∧
      (∀ kv ∈ es1, ∀ b, kv.2 = HVal.ref b → h.size ≤ b ∧ b < h1.size) ∧
      freshClosed h h1) := by
  intro f
  induction f with
  | zero =>
    exact ⟨fun h v h1 v1 hv => by simp [deepcopyVal] at hv,
           fun h es h1 es1 he => by simp [deepcopyEntries] at he⟩
  | succ f ih =>
    constructor
    · intro h v h1 v1 hv
      match v with
      | HVal.int n =>
        simp only [deepcopyVal, Option.some.injEq, Prod.mk.injEq] at hv
        obtain ⟨rfl, rfl⟩ := hv
        exact ⟨⟨[], by simp⟩, fun b hb => by simp at hb, freshClosed_self h⟩
      | HVal.arr xs =>
        simp only [deepcopyVal, Option.some.injEq, Prod.mk.injEq] at hv
        obtain ⟨rfl, rfl⟩ := hv
        exact ⟨⟨[], by simp⟩, fun b hb => by simp at hb, freshClosed_self h⟩
      | HVal.ref a =>
        simp only [deepcopyVal] at hv
        rcases hde : deepcopyEntries f h (h.get a) with _ | ⟨h0, es⟩
        · rw [hde] at hv; cases hv
        · rw [hde] at hv
          simp only [Heap.alloc, Option.some.injEq, Prod.mk.injEq] at hv
          obtain ⟨rfl, rfl⟩ := hv
          obtain ⟨⟨t0, ht0⟩, hrefs, hfc⟩ := ih.2 h (h.get a) h0 es hde
          have hsz0 : h.size ≤ h0.size := Heap.size_ext t0 ht0
          refine ⟨⟨t0 ++ [es], by simp [ht0]⟩, ?_, ?_⟩
          · intro b hb
            injection hb with hb
            subst hb
            constructor
            · exact hsz0
            · simp [Heap.size]
          · intro j hj kv hkv b hb
            rcases Nat.lt_trichotomy j h0.size with hlt | heq | hgt
            · rw [show (⟨h0.objs ++ [es]⟩ : Heap).get j = h0.get j from
                Heap.get_ext [es] rfl j hlt] at hkv
              exact hfc j hj kv hkv b hb
            · have heq' : j = h0.objs.length := by simpa [Heap.size] using heq
              have : (⟨h0.objs ++ [es]⟩ : Heap).get j = es := by
                simp only [Heap.get]
                rw [List.getD_append_right h0.objs [es] [] j (by omega)]
                simp [heq']
              rw [this] at hkv
              exact (hrefs kv hkv b hb).1
            · have hgt' : h0.objs.length < j := by simpa [Heap.size] using hgt
              rw [Heap.get_past _ j (by simp [Heap.size]; omega)] at hkv
              simp at hkv
    · intro h es h1 es1 he
      match es with
      | [] =>
        simp only [deepcopyEntries, Option.some.injEq, Prod.mk.injEq] at he
        obtain ⟨rfl, rfl⟩ := he
        exact ⟨⟨[], by simp⟩, fun kv hkv => by simp at hkv, freshClosed_self h⟩
      | (k, v) :: es0 =>
        simp only [deepcopyEntries] at he
        rcases hdv : deepcopyVal f h v with _ | ⟨hA, v1⟩
        · rw [hdv] at he; cases he
        · rcases hdr : deepcopyEntries f hA es0 with _ | ⟨hB, es2⟩
          · simp only [hdv, hdr] at he
            exact Option.noConfusion he
          · simp only [hdv, hdr, Option.some.injEq, Prod.mk.injEq] at he
            obtain ⟨rfl, rfl⟩ := he
            obtain ⟨⟨tA, htA⟩, hrefA, hfcA⟩ := (ih.1) h v hA v1 hdv
            obtain ⟨⟨tB, htB⟩, hrefB, hfcB⟩ := (ih.2) hA es0 hB es2 hdr
            have hszA : h.size ≤ hA.size := Heap.size_ext tA htA
            have hszB : hA.size ≤ hB.size := Heap.size_ext tB htB
            refine ⟨⟨tA ++ tB, by simp [htB, htA]⟩, ?_, ?_⟩
            · intro kv hkv b hb
              rcases List.mem_cons.mp hkv with rfl | hkv
              · obtain ⟨hb1, hb2⟩ := hrefA b hb
                exact ⟨hb1, lt_of_lt_of_le hb2 hszB⟩
              · obtain ⟨hb1, hb2⟩ := hrefB kv hkv b hb
                exact ⟨le_trans hszA hb1, hb2⟩
            · exact freshClosed_trans tA htA hfcA hfcB tB htB

/-- An empty update loop leaves the heap unchanged (given any fuel that
lets it run). -/
lemma mergeLoopH_nil {f : Nat} {h : Heap} {c : Addr} {a2 : Option Addr}
    {h2 : Heap} (hm : mergeLoopH f h c a2 [] = some h2) : h2 = h := by
  match f with
  | 0 => exact Option.noConfusion hm
  | f + 1 =>
    simp only [mergeLoopH, Option.some.injEq] at hm
    exact hm.symm

/-- The heap-level `merge_dicts` writes only to freshly allocated objects:
every pre-existing dictionary object is untouched and the returned address
is fresh.  Its update loop writes only to the result object `c` and to
fresh addresses. -/
lemma merge_spec : ∀ f : Nat,
    (∀ h a1 a2 h2 r, merge_dictsH f h a1 a2 = some (h2, r) →
      h.size ≤ h2.size ∧ (∀ j, j < h.size → h2.get j = h.get j) ∧
      h.size ≤ r ∧ r < h2.size) ∧
    (∀ h c a2 ks h2, mergeLoopH f h c a2 ks = some h2 →
      h.size ≤ h2.size ∧ (∀ j, j < h.size → j ≠ c → h2.get j = h.get j)) := by
  intro f
  induction f with
  | zero =>
    exact ⟨fun h a1 a2 h2 r hm => by simp [merge_dictsH] at hm,
           fun h c a2 ks h2 hm => by simp [mergeLoopH] at hm⟩
  | succ f ih =>
    constructor
    · intro h a1 a2 h2 r hm
      simp only [merge_dictsH] at hm
      split at hm
      · rename_i h1 c heq
        split at hm
        · exact Option.noConfusion hm
        · rename_i h2' hml
          simp only [Option.some.injEq, Prod.mk.injEq] at hm
          obtain ⟨rfl, rfl⟩ := hm
          obtain ⟨⟨t, ht⟩, href, _⟩ :=
            (deepcopy_spec (f + 1)).1 h (HVal.ref a1) h1 (HVal.ref c) heq
          obtain ⟨hc1, hc2⟩ := href c rfl
          obtain ⟨hsz12, pres⟩ := ih.2 h1 c a2 _ h2' hml
          have hsz01 : h.size ≤ h1.size := Heap.size_ext t ht
          refine ⟨le_trans hsz01 hsz12, ?_, hc1, lt_of_lt_of_le hc2 hsz12⟩
          intro j hj
          have hjc : j ≠ c := by omega
          rw [pres j (by omega) hjc, Heap.get_ext t ht j hj]
      · exact Option.noConfusion hm
    · intro h c a2 ks h2 hm
      match ks with
      | [] =>
        obtain rfl := mergeLoopH_nil hm
        exact ⟨Nat.le_refl _, fun j _ _ => rfl⟩
      | k :: ks0 =>
        rcases a2 with _ | b
        · simp only [mergeLoopH] at hm
          exact Option.noConfusion hm
        · simp only [mergeLoopH] at hm
          rcases hmv : lookupKey (h.get b) k with _ | mv
          · simp only [hmv] at hm
            exact Option.noConfusion hm
          · simp only [hmv] at hm
            split at hm
            · rename_i s1 s2 heq
              rcases hmm : merge_dictsH f h s1 (some s2) with _ | ⟨hr, r⟩
              · simp only [hmm] at hm
                exact Option.noConfusion hm
              · simp only [hmm] at hm
                obtain ⟨hszM, presM, hrM1, hrM2⟩ := ih.1 h s1 (some s2) hr r hmm
                obtain ⟨hszL, presL⟩ := ih.2 _ c (some b) ks0 h2 hm
                rw [Heap.size_set] at hszL
                refine ⟨le_trans hszM hszL, ?_⟩
                intro j hj hjc
                rw [presL j (by rw [Heap.size_set]; omega) hjc,
                  Heap.get_set_ne hr c j _ (fun hx => hjc hx.symm),
                  presM j hj]
            all_goals (
              obtain ⟨hszL, presL⟩ := ih.2 _ c (some b) ks0 h2 hm
              rw [Heap.size_set] at hszL
              refine ⟨hszL, ?_⟩
              intro j hj hjc
              rw [presL j (by rw [Heap.size_set]; omega) hjc,
                Heap.get_set_ne h c j _ (fun hx => hjc hx.symm)])

/-- `append_dict`'s loop writes only to the object at `a1`. -/
lemma appendLoop_spec (a1 a2 : Addr) : ∀ (ks : List String) (h h2 : Heap),
    appendLoop a1 a2 h ks = some h2 → ∀ j, j ≠ a1 → h2.get j = h.get j := by
  intro ks
  induction ks with
  | nil =>
    intro h h2 hap j hj
    simp only [appendLoop, Option.some.injEq] at hap
    subst hap
    rfl
  | cons k ks ih =>
    intro h h2 hap j hj
    simp only [appendLoop] at hap
    split at hap
    · rw [ih _ _ hap j hj, Heap.get_set_ne h a1 j _ (fun hx => hj hx.symm)]
    · exact Option.noConfusion hap

/-- C7 as stated is false for `append_dict`: on a heap whose object 0 is
`{"x": array([1])}` and object 1 is `{"x": array([2])}`, the call
overwrites object 0 — its own first argument — with the concatenation and
returns that same object. -/
theorem claim_C7_counterexample :
    append_dict hApp 0 1 = some (hAppM, 0) ∧ hAppM.get 0 ≠ hApp.get 0 :=
  ⟨rfl, by decide⟩

/-- C7 amended: `merge_dicts` computes its result without mutating any
pre-existing dictionary object (it writes only to freshly allocated
copies), and `flatten_dict` performs no heap write at all (its model
returns no heap); but `append_dict` is not pure: it writes to its first
argument — and only to that object — and returns the same mutated
object. -/
theorem claim_C7_amended :
    (∀ f h a1 a2 h2 r, merge_dictsH f h a1 a2 = some (h2, r) →
      ∀ j, j < h.size → h2.get j = h.get j) ∧
    (∀ h a1 a2 h2 r, append_dict h a1 a2 = some (h2, r) →
      r = a1 ∧ ∀ j, j ≠ a1 → h2.get j = h.get j) := by
  constructor
  · intro f h a1 a2 h2 r hm
    exact ((merge_spec f).1 h a1 a2 h2 r hm).2.1
  · intro h a1 a2 h2 r hap
    rcases hal : appendLoop a1 a2 h ((h.get a1).map Prod.fst) with _ | h1
    · simp only [append_dict, hal] at hap
      exact Option.noConfusion hap
    · simp only [append_dict, hal, Option.some.injEq, Prod.mk.injEq] at hap
      obtain ⟨rfl, rfl⟩ := hap
      exact ⟨rfl, fun j hj => appendLoop_spec a1 a2 _ h h1 hal j hj⟩

/-- Witness for the amended C7: the nested-dictionary merge leaves its
argument object unchanged, and `append_dict` leaves its second argument
unchanged while mutating its first. -/
theorem claim_C7_witness :
    hNestedM.get 0 = hNested.get 0 ∧ hAppM.get 1 = hApp.get 1 :=
  ⟨claim_C7_amended.1 8 hNested 0 none hNestedM 3 rfl 0 (by decide),
   (claim_C7_amended.2 hApp 0 1 hAppM 0 rfl).2 1 (by decide)⟩

/-- C10: merging with a falsy second argument (`None` or an empty dict) is
an identity up to deep copying: at value level the result equals the first
argument; at heap level every pre-existing object — in particular the
argument — is unchanged, the returned address is fresh, and the freshly
allocated objects share no dictionary object with the pre-existing heap
(`freshClosed`). -/
theorem claim_C10 :
    (∀ (f : Nat) (d : List (String × PyTree)),
      merge_dictsV f d none = some d ∧ merge_dictsV f d (some []) = some d) ∧
    (∀ f h a h2 r, merge_dictsH f h a none = some (h2, r) →
      (∀ j, j < h.size → h2.get j = h.get j) ∧
        h.size ≤ r ∧ freshClosed h h2) ∧
    (∀ f h a b h2 r, b < h.size → h.get b = [] →
      merge_dictsH f h a (some b) = some (h2, r) →
      (∀ j, j < h.size → h2.get j = h.get j) ∧
        h.size ≤ r ∧ freshClosed h h2) := by
  refine ⟨?_, ?_, ?_⟩
  · intro f d
    cases f <;> exact ⟨rfl, rfl⟩
  · intro f h a h2 r hm
    match f with
    | 0 => exact Option.noConfusion hm
    | f + 1 =>
      simp only [merge_dictsH] at hm
      split at hm
      · rename_i h1 c heq
        split at hm
        · exact Option.noConfusion hm
        · rename_i h2' hml
          simp only [Option.some.injEq, Prod.mk.injEq] at hm
          obtain ⟨rfl, rfl⟩ := hm
          obtain rfl := mergeLoopH_nil hml
          obtain ⟨⟨t, ht⟩, href, hfc⟩ :=
            (deepcopy_spec (f + 1)).1 h (HVal.ref a) _ (HVal.ref c) heq
          exact ⟨fun j hj => Heap.get_ext t ht j hj, (href c rfl).1, hfc⟩
      · exact Option.noConfusion hm
  · intro f h a b h2 r hb he hm
    match f with
    | 0 => exact Option.noConfusion hm
    | f + 1 =>
      simp only [merge_dictsH] at hm
      split at hm
      · rename_i h1 c heq
        obtain ⟨⟨t, ht⟩, href, hfc⟩ :=
          (deepcopy_spec (f + 1)).1 h (HVal.ref a) h1 (HVal.ref c) heq
        have hkeys : (h1.get b).map Prod.fst = ([] : List String) := by
          rw [Heap.get_ext t ht b hb, he]
          rfl
        rw [hkeys] at hm
        split at hm
        · exact Option.noConfusion hm
        · rename_i h2' hml
          simp only [Option.some.injEq, Prod.mk.injEq] at hm
          obtain ⟨rfl, rfl⟩ := hm
          obtain rfl := mergeLoopH_nil hml
          exact ⟨fun j hj => Heap.get_ext t ht j hj, (href c rfl).1, hfc⟩
      · exact Option.noConfusion hm

/-- Witness for C10: an identity value-level merge, and the heap-level
merge of the nested dictionary with `None` leaving the original objects
unchanged and returning the fresh address 3. -/
theorem claim_C10_witness :
    merge_dictsV 5 [("a", PyTree.int 1)] none = some [("a", PyTree.int 1)] ∧
    hNestedM.get 1 = hNested.get 1 ∧ hNested.size ≤ 3 :=
  ⟨(claim_C10.1 5 _).1,
   (claim_C10.2.1 8 hNested 0 hNestedM 3 rfl).1 1 (by decide),
   (claim_C10.2.1 8 hNested 0 hNestedM 3 rfl).2.1⟩

/-- C4: when `distributed` is false, or the resolved world size is at most
1, `distributed_cmd_run` invokes `worker_fn` exactly once synchronously
with the given arguments, with no device binding, no collective
initialization and no spawn, and returns normally. -/
theorem claim_C4 {α : Type} (distributed : Bool) (a : α)
    (p : DistributedParams) (w : World)
    (h : distributed = false ∨ p.world_size ≤ 1) :
    distributed_cmd_run distributed a p w =
      ([Event.workerCall a], Except.ok ()) := by
  rcases h with h | h
  · simp [distributed_cmd_run, h]
  · simp [distributed_cmd_run, h]

/-- Witness for C4 at `distributed = false` and at `world_size = 1`. -/
theorem claim_C4_witness :
    distributed_cmd_run false (0 : Nat) sampleP sampleWorld =
        ([Event.workerCall 0], Except.ok ()) ∧
      distributed_cmd_run true (0 : Nat) ⟨none, 1, 0⟩ sampleWorld =
        ([Event.workerCall 0], Except.ok ()) :=
  ⟨claim_C4 false 0 sampleP sampleWorld (Or.inl rfl),
   claim_C4 true 0 ⟨none, 1, 0⟩ sampleWorld (Or.inr (by decide))⟩

/-- C5: when `distributed` is true, `world_size > 1` and a local rank is
set, the launcher binds the device with that rank, initializes the process
group with the nccl backend and the environment-variable rendezvous
(`env://`), invokes `worker_fn` once, spawns nothing, and returns
normally. -/
theorem claim_C5 {α : Type} (a : α) (p : DistributedParams) (w : World)
    (lr : Int) (hw : 1 < p.world_size) (hlr : p.local_rank = some lr) :
    distributed_cmd_run true a p w =
      ([Event.setDevice lr, Event.initProcessGroup "nccl" "env://",
        Event.workerCall a], Except.ok ()) := by
  simp only [distributed_cmd_run, hlr]
  rw [if_neg (by simp; omega)]

/-- Witness for C5 at local rank 1. -/
theorem claim_C5_witness :
    distributed_cmd_run true (0 : Nat) sampleWorkerP sampleWorld =
      ([Event.setDevice 1, Event.initProcessGroup "nccl" "env://",
        Event.workerCall 0], Except.ok ()) :=
  claim_C5 0 sampleWorkerP sampleWorld 1 (by decide) rfl

/-- C3: in the spawn branch with `device_count = N` and no spawn or wait
failure, exactly `N` workers are spawned, the `i`-th with command
`[sys.executable] + sys.argv` and an environment encoding local rank `i`,
rank `start_rank + i` and the world size; the launcher waits on every one
of them before the final cleanup and returns normally. -/
theorem claim_C3 {α : Type} (a : α) (p : DistributedParams) (w : World)
    (hw : 1 < p.world_size) (hlr : p.local_rank = none)
    (hspawn : ∀ i, i < w.deviceCount → w.spawnOk i = true)
    (hwait : ∀ i, i < w.deviceCount → w.waitRaises i = false) :
    distributed_cmd_run true a p w =
      ((List.range w.deviceCount).map
          (fun i => Event.spawn (spawnCmd w) (mkEnv p i)) ++
        ((List.range w.deviceCount).map
            (fun i => Event.wait i (w.exitCode i)) ++
          (List.range w.deviceCount).map Event.kill),
       Except.ok ()) := by
  rw [distributed_cmd_run_spawn a p w hw hlr]
  exact spawnBranch_normal w p hspawn hwait

/-- Witness for C3: two devices, two spawned workers with local ranks 0
and 1 and ranks `start_rank + 0`, `start_rank + 1`. -/
theorem claim_C3_witness :
    distributed_cmd_run true (0 : Nat) sampleP sampleWorld =
      ((List.range 2).map
          (fun i => Event.spawn (spawnCmd sampleWorld) (mkEnv sampleP i)) ++
        ((List.range 2).map (fun i => Event.wait i (sampleWorld.exitCode i)) ++
          (List.range 2).map Event.kill),
       Except.ok ()) :=
  claim_C3 0 sampleP sampleWorld (by decide) rfl
    (fun _ _ => rfl) (fun _ _ => rfl)

/-- C6: in the spawn branch with zero visible devices, nothing is spawned,
nothing is waited on, and the launcher returns normally with an empty
effect trace. -/
theorem claim_C6 {α : Type} (a : α) (p : DistributedParams) (w : World)
    (hw : 1 < p.world_size) (hlr : p.local_rank = none)
    (hdev : w.deviceCount = 0) :
    distributed_cmd_run true a p w = ([], Except.ok ()) := by
  rw [distributed_cmd_run_spawn a p w hw hlr]
  simp [spawnBranch, hdev, spawnLoop, waitLoop]

/-- Witness for C6 with a zero-device world. -/
theorem claim_C6_witness :
    distributed_cmd_run true (0 : Nat) sampleP zeroDevWorld =
      ([], Except.ok ()) :=
  claim_C6 0 sampleP zeroDevWorld (by decide) rfl rfl

/-- C8: two launches with `distributed = false` are two independent
synchronous invocations of `worker_fn`: the combined trace is exactly the
two worker calls — no spawn, wait or kill events, hence no process handle
or launcher state left behind — and both launches return normally. -/
theorem claim_C8 {α : Type} (a1 a2 : α) (p1 p2 : DistributedParams)
    (w1 w2 : World) :
    (distributed_cmd_run false a1 p1 w1).1 ++
        (distributed_cmd_run false a2 p2 w2).1 =
      [Event.workerCall a1, Event.workerCall a2] ∧
    (distributed_cmd_run false a1 p1 w1).2 = Except.ok () ∧
    (distributed_cmd_run false a2 p2 w2).2 = Except.ok () := by
  refine ⟨?_, ?_, ?_⟩ <;> simp [distributed_cmd_run]

/-- C2 as stated is false: here worker 0 exits with status 1, the `wait`
call returns that status without raising, and the launcher kills the
worker and returns normally — no error is propagated. -/
theorem claim_C2_counterexample :
    (distributed_cmd_run true (0 : Nat) ⟨none, 2, 0⟩ failWorld).1 =
        [Event.spawn ["/usr/bin/python3", "train.py"] ⟨0, 0, 2⟩,
         Event.wait 0 1, Event.kill 0] ∧
      (distributed_cmd_run true (0 : Nat) ⟨none, 2, 0⟩ failWorld).2 =
        Except.ok () := by
  constructor <;> rfl

/-- C2 amended: the exit statuses of the spawned workers are ignored.
Whenever every spawn succeeds and no `wait` call raises, the launcher
returns normally, whatever the exit statuses — a non-zero worker exit
produces a silent normal return, not a propagated error. -/
theorem claim_C2_amended {α : Type} (a : α) (p : DistributedParams)
    (w : World) (hw : 1 < p.world_size) (hlr : p.local_rank = none)
    (hspawn : ∀ i, i < w.deviceCount → w.spawnOk i = true)
    (hwait : ∀ i, i < w.deviceCount → w.waitRaises i = false) :
    (distributed_cmd_run true a p w).2 = Except.ok () := by
  rw [distributed_cmd_run_spawn a p w hw hlr,
    spawnBranch_normal w p hspawn hwait]

/-- Witness for the amended C2: the worker exits with status 1 and the
launcher still returns normally. -/
theorem claim_C2_amended_witness :
    (distributed_cmd_run true (0 : Nat) ⟨none, 2, 0⟩ failWorld).2 =
      Except.ok () :=
  claim_C2_amended 0 ⟨none, 2, 0⟩ failWorld (by decide) rfl
    (fun _ _ => rfl) (fun _ _ => rfl)

end Catalyst
